import Mathlib

/- Verification of src/components/script/dom/htmltableelement.rs.

The table element's own logic (struct HTMLTableElement, its
HTMLTableElementMethods impl, its layout helpers and its VirtualMethods
impl) is embedded below.  The generic tree collaborator (dom::node), the
attribute storage (dom::element / dom::attr) and the parsing library
(util::str) are outside src/ and are modelled from the spec where a claim
needs them; each such definition carries a doc comment starting with
"Modelled from the spec:". -/

/-- Kind of a direct child of the table node, as distinguished by the
downcast and local-name checks in htmltableelement.rs: a caption element
(HTMLTableCaptionElement), a table-section element (HTMLTableSectionElement)
whose local name is tbody, a table-section element with another local name
(thead or tfoot), some other element, or a non-element node (e.g. text). -/
inductive NodeKind where
  | caption
  | sectionTbody
  | sectionOther
  | otherElement
  | nonElement
deriving DecidableEq

/-- A direct child of the table node: a stable identity plus its kind. -/
structure DomNode where
  id : Nat
  kind : NodeKind
deriving DecidableEq

/-- The check performed by filter_map(Root::downcast::<HTMLTableCaptionElement>):
the child is a caption element. -/
def isCaption (n : DomNode) : Bool := n.kind == NodeKind.caption

/-- The check performed in CreateTBody's find closure:
n.is::<HTMLTableSectionElement>() && n.local_name() == &atom!("tbody").
NodeKind.sectionTbody encodes exactly this conjunction. -/
def isTbody (n : DomNode) : Bool := n.kind == NodeKind.sectionTbody

/-- A table-section element of any local name (tbody, thead or tfoot). -/
def isSectionType (n : DomNode) : Bool :=
  n.kind == NodeKind.sectionTbody || n.kind == NodeKind.sectionOther

/-- Modelled from the spec: Root::downcast::<Element> on a child
(dom::bindings, outside src/) succeeds exactly when the child is an
element node. -/
def downcastElement (n : DomNode) : Option DomNode :=
  if n.kind = NodeKind.nonElement then none else some n

/-- Modelled from the spec: Node::remove_self (dom::node, outside src/)
removes the node from its parent's child list. -/
def removeSelf (l : List DomNode) (n : DomNode) : List DomNode := l.erase n

/-- Modelled from the spec: Node::GetFirstChild (dom::node, outside src/). -/
def firstChild (l : List DomNode) : Option DomNode := l.head?

/-- Modelled from the spec: Node::GetNextSibling (dom::node, outside src/):
the child immediately after the (first occurrence of the) given node, or
none if it is the last child. -/
def nextSibling : List DomNode → DomNode → Option DomNode
  | [], _ => none
  | x :: xs, n => if x = n then xs.head? else nextSibling xs n

/-- Insert a node immediately before the first occurrence of the reference
child, helper for insertBefore. -/
def insertAtRef : List DomNode → DomNode → DomNode → List DomNode
  | [], node, _ => [node]
  | x :: xs, node, r => if x = r then node :: x :: xs else x :: insertAtRef xs node r

/-- Modelled from the spec: Node::InsertBefore (dom::node, outside src/),
the external tree collaborator's fallible insertion primitive, following
the DOM pre-insert algorithm restricted to this flat child list: a given
reference child that is not a child is rejected (the error the source
turns into an abort via expect); if the reference child is the inserted
node itself, the reference becomes the node's next sibling; a node already
in the child list is moved (removed from its old position first); with no
reference child the node is appended as the last child. -/
def insertBefore (l : List DomNode) (node : DomNode) (ref : Option DomNode) :
    Except String (List DomNode) :=
  match ref with
  | none => .ok (l.erase node ++ [node])
  | some r =>
    if r ∈ l then
      match (if r = node then nextSibling l node else some r) with
      | none => .ok (l.erase node ++ [node])
      | some r2 => .ok (insertAtRef (l.erase node) node r2)
    else .error "NotFoundError"

/-- GetCaption (htmltableelement.rs lines 56-58): the first direct child
that downcasts to HTMLTableCaptionElement. -/
def GetCaption (l : List DomNode) : Option DomNode := l.find? isCaption

/-- SetCaption (htmltableelement.rs lines 61-71): if a current caption
exists it is removed via remove_self, then the new caption (when given) is
inserted before the current first child.  The Except result models the
Fallible result of the InsertBefore call that the source unwraps with
expect("Insertion failed"). -/
def SetCaption (l : List DomNode) (new_caption : Option DomNode) :
    Except String (List DomNode) :=
  let l1 :=
    match GetCaption l with
    | some caption => removeSelf l caption
    | none => l
  match new_caption with
  | some caption => insertBefore l1 caption (firstChild l1)
  | none => .ok l1

/-- DeleteCaption (htmltableelement.rs lines 89-93): remove the current
caption if one exists. -/
def DeleteCaption (l : List DomNode) : List DomNode :=
  match GetCaption l with
  | some caption => removeSelf l caption
  | none => l

/-- State of one table node: its ordered direct children, plus the next
fresh identity handed out by the external node-construction collaborator
(HTMLTableCaptionElement::new / HTMLTableSectionElement::new construct
fresh nodes; freshness is their guarantee, represented by the counter). -/
structure TableState where
  children : List DomNode
  nextId : Nat
deriving DecidableEq

/-- CreateCaption (htmltableelement.rs lines 74-86): return the existing
caption if GetCaption finds one; otherwise construct a new caption element
and install it via SetCaption.  Returns the caption and the new state. -/
def CreateCaption (σ : TableState) : Except String (DomNode × TableState) :=
  match GetCaption σ.children with
  | some caption => .ok (caption, σ)
  | none =>
    let caption : DomNode := ⟨σ.nextId, NodeKind.caption⟩
    (SetCaption σ.children (some caption)).map fun l2 =>
      (caption, ⟨l2, σ.nextId + 1⟩)

/-- The reverse scan in CreateTBody (htmltableelement.rs lines 101-104):
rev_children().filter_map(Root::downcast::<Element>).find(tbody check). -/
def revFindTbody (l : List DomNode) : Option DomNode :=
  (l.reverse.filterMap downcastElement).find? isTbody

/-- CreateTBody (htmltableelement.rs lines 96-111): construct a new tbody
section element; find the last tbody among the direct children by a
reverse scan; insert the new element before that child's next sibling (or
with no reference child when there is no such tbody or it is last, i.e.
append); return the new element.  The Except result models the Fallible
result of the InsertBefore call unwrapped with expect("Insertion failed"). -/
def CreateTBody (σ : TableState) : Except String (DomNode × TableState) :=
  let tbody : DomNode := ⟨σ.nextId, NodeKind.sectionTbody⟩
  let reference_element := (revFindTbody σ.children).bind fun t =>
    nextSibling σ.children t
  (insertBefore σ.children tbody reference_element).map fun l2 =>
    (tbody, ⟨l2, σ.nextId + 1⟩)

/-- Number of caption-type direct children. -/
def countCaptions (l : List DomNode) : Nat := (l.filter isCaption).length

/-- One script-facing caption operation, for reasoning about sequences of
calls through the caption interface. -/
inductive CaptionOp where
  | set (newCaption : Option DomNode)
  | create
  | delete

/-- Run one caption operation on a table state.  The error branches
correspond to the aborts of expect("Insertion failed") in the source and
are proved unreachable (see the insertion theorems below). -/
def runOp (σ : TableState) : CaptionOp → TableState
  | CaptionOp.set nc =>
    match SetCaption σ.children nc with
    | .ok l2 => ⟨l2, σ.nextId⟩
    | .error _ => σ
  | CaptionOp.create =>
    match CreateCaption σ with
    | .ok (_, σ2) => σ2
    | .error _ => σ
  | CaptionOp.delete => ⟨DeleteCaption σ.children, σ.nextId⟩

/-- Run a sequence of caption operations. -/
def runOps (σ : TableState) (ops : List CaptionOp) : TableState :=
  ops.foldl runOp σ

/-- Well-formed table state: children have pairwise distinct identities,
all older than the fresh counter.  This is the freshness guarantee of the
external node-construction collaborator. -/
def WF (σ : TableState) : Prop :=
  (σ.children.map DomNode.id).Nodup ∧ ∀ n ∈ σ.children, n.id < σ.nextId

/-- The spec's insertion rule for section children, written from the
spec's words for comparison with CreateTBody: the new child goes
immediately after the last child matching p, or is appended as the last
child when no child matches; no other child moves. -/
def insertAfterLastMatch (p : DomNode → Bool) : List DomNode → DomNode → List DomNode
  | [], t => [t]
  | x :: xs, t =>
    if xs.any p then x :: insertAfterLastMatch p xs t
    else if p x then x :: t :: xs
    else x :: insertAfterLastMatch p xs t

/-- Modelled from the spec: util::str::parse_unsigned_integer (outside
src/) parses a leading unsigned integer; parsing fails on non-numeric or
empty input and on overflow of the unsigned 32-bit range. -/
def parse_unsigned_integer (s : String) : Option Nat :=
  let digits := s.toList.takeWhile Char.isDigit
  if digits.isEmpty then none
  else
    let n := digits.foldl (fun acc c => acc * 10 + (c.toNat - 48)) 0
    if n < 2 ^ 32 then some n else none

/-- A color value.  cssparser::RGBA (outside src/) is opaque to the table
element; only construction by the parser and equality matter here. -/
structure RGBA where
  red : Nat
  green : Nat
  blue : Nat
deriving DecidableEq

/-- Value of a hexadecimal digit, helper for the modelled color parser. -/
def hexDigitVal (c : Char) : Option Nat :=
  if '0' ≤ c ∧ c ≤ '9' then some (c.toNat - 48)
  else if 'a' ≤ c ∧ c ≤ 'f' then some (c.toNat - 87)
  else if 'A' ≤ c ∧ c ≤ 'F' then some (c.toNat - 55)
  else none

/-- Modelled from the spec: util::str::parse_legacy_color (outside src/)
attempts legacy HTML color parsing; on failure the result is None and no
error is raised.  The spec fixes only that contract, so a representative
subset of the legacy grammar (#rrggbb) is modelled; every other string
fails.  The source's Result.ok() adaptation is folded into the Option. -/
def parse_legacy_color (s : String) : Option RGBA :=
  match s.toList with
  | ['#', r1, r2, g1, g2, b1, b2] =>
    match hexDigitVal r1, hexDigitVal r2, hexDigitVal g1, hexDigitVal g2,
        hexDigitVal b1, hexDigitVal b2 with
    | some a, some b, some c, some d, some e, some f =>
      some ⟨a * 16 + b, c * 16 + d, e * 16 + f⟩
    | _, _, _, _, _, _ => none
  | _ => none

/-- The bgcolor derivation of attribute_mutated (htmltableelement.rs
lines 175-179): new_value.and_then(parse_legacy_color(..).ok()). -/
def deriveBackgroundColor (v : Option String) : Option RGBA :=
  v.bind fun value => parse_legacy_color value

/-- The border derivation of attribute_mutated (htmltableelement.rs
lines 180-185): new_value.map(parse_unsigned_integer(..).unwrap_or(1)). -/
def deriveBorder (v : Option String) : Option Nat :=
  v.map fun value => (parse_unsigned_integer value).getD 1

/-- The cellspacing derivation of attribute_mutated (htmltableelement.rs
lines 186-190): new_value.and_then(parse_unsigned_integer). -/
def deriveCellSpacing (v : Option String) : Option Nat :=
  v.bind fun value => parse_unsigned_integer value

/-- The three cached presentation fields of HTMLTableElement
(htmltableelement.rs lines 26-28). -/
structure AttributeCache where
  background_color : Option RGBA
  border : Option Nat
  cellspacing : Option Nat
deriving DecidableEq

/-- attribute_mutated (htmltableelement.rs lines 172-193) acting on the
cache: match on the attribute's local name and store the derivation of the
resolved new value (None on removal) into the matching cache cell; any
other local name is a no-op at this layer.  The source first delegates to
the superclass handler (HTMLElement, outside src/), which does not touch
these fields. -/
def attribute_mutated (cache : AttributeCache) (local_name : String)
    (new_value : Option String) : AttributeCache :=
  if local_name = "bgcolor" then
    ⟨deriveBackgroundColor new_value, cache.border, cache.cellspacing⟩
  else if local_name = "border" then
    ⟨cache.background_color, deriveBorder new_value, cache.cellspacing⟩
  else if local_name = "cellspacing" then
    ⟨cache.background_color, cache.border, deriveCellSpacing new_value⟩
  else cache

/-- Modelled from the spec: raw attribute lookup in the attribute storage
collaborator (dom::element, outside src/). -/
def lookupAttr : List (String × String) → String → Option String
  | [], _ => none
  | (n, v) :: rest, name => if n = name then some v else lookupAttr rest name

/-- Modelled from the spec: storing an attribute value in the attribute
storage collaborator (dom::element, outside src/). -/
def setAttr : List (String × String) → String → String → List (String × String)
  | [], name, value => [(name, value)]
  | (n, v) :: rest, name, value =>
    if n = name then (name, value) :: rest else (n, v) :: setAttr rest name value

/-- Modelled from the spec: removing an attribute from the attribute
storage collaborator (dom::element, outside src/). -/
def removeAttr : List (String × String) → String → List (String × String)
  | [], _ => []
  | (n, v) :: rest, name =>
    if n = name then removeAttr rest name else (n, v) :: removeAttr rest name

/-- An attribute-mutation event: set (or change) an attribute to a value,
or remove it. -/
inductive AttrEvent where
  | set (name value : String)
  | removed (name : String)

/-- One attribute-mutation step: the storage collaborator updates the raw
attribute, then attribute_mutated runs with AttributeMutation::new_value
(the stored value for set/change, None for removal). -/
def applyEvent : List (String × String) × AttributeCache → AttrEvent →
    List (String × String) × AttributeCache
  | (attrs, cache), AttrEvent.set name value =>
    (setAttr attrs name value, attribute_mutated cache name (some value))
  | (attrs, cache), AttrEvent.removed name =>
    (removeAttr attrs name, attribute_mutated cache name none)

/-- Invariant I2: each cache cell equals the pure derivation applied to the
current raw attribute value. -/
def cacheConsistent (attrs : List (String × String)) (cache : AttributeCache) : Prop :=
  cache.background_color = deriveBackgroundColor (lookupAttr attrs "bgcolor") ∧
  cache.border = deriveBorder (lookupAttr attrs "border") ∧
  cache.cellspacing = deriveCellSpacing (lookupAttr attrs "cellspacing")

/-- The width hint type of the render path.  util::str's
LengthOrPercentageOrAuto (outside src/) carries float and app-unit
payloads that get_width only transports verbatim; they are represented by
opaque numerals. -/
inductive LengthOrPercentageOrAuto where
  | Auto
  | Percentage (value : Nat)
  | Length (value : Nat)
deriving DecidableEq

/-- Typed attribute values.  dom::attr::AttrValue (outside src/) has more
variants; the ones relevant to this element are a plain string, an
unsigned integer (border) and a dimension (width), each keeping the raw
string. -/
inductive AttrValue where
  | str (value : String)
  | uint (value : String) (n : Nat)
  | dimension (value : String) (d : LengthOrPercentageOrAuto)
deriving DecidableEq

/-- Modelled from the spec: AttrValue::as_dimension (dom::attr, outside
src/) projects the typed dimension out of a dimension-typed value; per the
spec's contract for the width hint, a present non-dimension value yields
no dimension and the caller falls back to auto. -/
def as_dimension : AttrValue → Option LengthOrPercentageOrAuto
  | AttrValue.dimension _ d => some d
  | _ => none

/-- Modelled from the spec: typed attribute lookup used by the layout path
(RawLayoutElementHelpers::get_attr_for_layout, outside src/). -/
def get_attr_for_layout : List (String × AttrValue) → String → Option AttrValue
  | [], _ => none
  | (n, v) :: rest, name => if n = name then some v else get_attr_for_layout rest name

/-- get_width (htmltableelement.rs lines 155-164): look up the width
attribute in the current attribute storage on demand (no cache is
involved), take its typed dimension, and fall back to the fixed sentinel
Auto otherwise. -/
def get_width (attrs : List (String × AttrValue)) : LengthOrPercentageOrAuto :=
  ((get_attr_for_layout attrs "width").bind as_dimension).getD
    LengthOrPercentageOrAuto.Auto

/- Helper lemmas about the attribute machinery. -/

theorem am_background_color (cache : AttributeCache) (name : String) (v : Option String) :
    (attribute_mutated cache name v).background_color =
      if name = "bgcolor" then deriveBackgroundColor v else cache.background_color := by
  simp only [attribute_mutated]
  by_cases h1 : name = "bgcolor"
  · simp [h1]
  · by_cases h2 : name = "border"
    · simp [h1, h2]
    · by_cases h3 : name = "cellspacing" <;> simp [h1, h2, h3]

theorem am_border (cache : AttributeCache) (name : String) (v : Option String) :
    (attribute_mutated cache name v).border =
      if name = "border" then deriveBorder v else cache.border := by
  simp only [attribute_mutated]
  by_cases h1 : name = "bgcolor"
  · subst h1
    simp
  · by_cases h2 : name = "border"
    · simp [h1, h2]
    · by_cases h3 : name = "cellspacing" <;> simp [h1, h2, h3]

theorem am_cellspacing (cache : AttributeCache) (name : String) (v : Option String) :
    (attribute_mutated cache name v).cellspacing =
      if name = "cellspacing" then deriveCellSpacing v else cache.cellspacing := by
  simp only [attribute_mutated]
  by_cases h1 : name = "bgcolor"
  · subst h1
    simp
  · by_cases h2 : name = "border"
    · subst h2
      simp [h1]
    · by_cases h3 : name = "cellspacing" <;> simp [h1, h2, h3]

theorem lookupAttr_setAttr_same (attrs : List (String × String)) (n v : String) :
    lookupAttr (setAttr attrs n v) n = some v := by
  induction attrs with
  | nil => simp [setAttr, lookupAttr]
  | cons p rest ih =>
    obtain ⟨pn, pv⟩ := p
    by_cases h : pn = n
    · simp [setAttr, h, lookupAttr]
    · simp [setAttr, h, lookupAttr, ih]

theorem lookupAttr_setAttr_other (attrs : List (String × String)) (n v m : String)
    (hm : m ≠ n) : lookupAttr (setAttr attrs n v) m = lookupAttr attrs m := by
  induction attrs with
  | nil => simp [setAttr, lookupAttr, Ne.symm hm]
  | cons p rest ih =>
    obtain ⟨pn, pv⟩ := p
    by_cases h : pn = n
    · subst h
      simp [setAttr, lookupAttr, Ne.symm hm]
    · by_cases h2 : pn = m <;> simp [setAttr, h, lookupAttr, h2, hm, ih]

theorem lookupAttr_removeAttr_same (attrs : List (String × String)) (n : String) :
    lookupAttr (removeAttr attrs n) n = none := by
  induction attrs with
  | nil => simp [removeAttr, lookupAttr]
  | cons p rest ih =>
    obtain ⟨pn, pv⟩ := p
    by_cases h : pn = n
    · simp [removeAttr, h, ih]
    · simp [removeAttr, h, lookupAttr, ih]

theorem lookupAttr_removeAttr_other (attrs : List (String × String)) (n m : String)
    (hm : m ≠ n) : lookupAttr (removeAttr attrs n) m = lookupAttr attrs m := by
  induction attrs with
  | nil => simp [removeAttr, lookupAttr]
  | cons p rest ih =>
    obtain ⟨pn, pv⟩ := p
    by_cases h : pn = n
    · subst h
      simp [removeAttr, lookupAttr, Ne.symm hm, ih]
    · by_cases h2 : pn = m <;> simp [removeAttr, h, lookupAttr, h2, hm, ih]

/-- C2 counterexample: the value "1" is present and IS a valid leading
unsigned integer, yet the border derivation returns 1, so "returns 1 iff
v is present and not a valid leading unsigned integer" is false at
v = "1". -/
theorem deriveBorder_iff_counterexample :
    ¬ (deriveBorder (some "1") = some 1 ↔
        ((some "1" : Option String)).isSome = true ∧ parse_unsigned_integer "1" = none) := by
  decide

/-- C2 (amended): the border derivation returns None iff the attribute is
absent; on a present value whose leading-unsigned-integer parse fails
(non-numeric, empty, or overflow) it returns the fixed fallback 1, never
an error and never None; on a present value that parses to n it returns
n (which can also be 1, so "returns 1" holds in the if direction only). -/
theorem deriveBorder_spec :
    deriveBorder none = none ∧
    (∀ v : Option String, deriveBorder v = none ↔ v = none) ∧
    (∀ s, parse_unsigned_integer s = none → deriveBorder (some s) = some 1) ∧
    (∀ s n, parse_unsigned_integer s = some n → deriveBorder (some s) = some n) := by
  refine ⟨rfl, ?_, ?_, ?_⟩
  · intro v
    cases v <;> simp [deriveBorder]
  · intro s h
    simp [deriveBorder, h]
  · intro s n h
    simp [deriveBorder, h]

theorem deriveBorder_spec_witness : deriveBorder (some "abc") = some 1 :=
  deriveBorder_spec.2.2.1 "abc" (by decide)

/-- C7: the cell-spacing derivation returns None when the attribute is
removed or absent, exactly the leading-unsigned-integer parse of a present
value otherwise (so Some n when it parses to n and None, with no fallback,
when parsing fails); deriveCellSpacing "5" = Some 5 and
deriveCellSpacing "abc" = None. -/
theorem deriveCellSpacing_spec :
    deriveCellSpacing none = none ∧
    (∀ s, deriveCellSpacing (some s) = parse_unsigned_integer s) ∧
    deriveCellSpacing (some "5") = some 5 ∧
    deriveCellSpacing (some "abc") = none := by
  refine ⟨rfl, fun s => rfl, by decide, by decide⟩

/-- C8: get_width computes on demand from current attribute storage (it
takes only the attribute storage, no cache): a present dimension-typed
width attribute yields its typed value; an absent width attribute, or a
present one holding no dimension-typed value, yields the sentinel Auto. -/
theorem get_width_spec (attrs : List (String × AttrValue)) :
    (∀ s d, get_attr_for_layout attrs "width" = some (AttrValue.dimension s d) →
      get_width attrs = d) ∧
    (get_attr_for_layout attrs "width" = none →
      get_width attrs = LengthOrPercentageOrAuto.Auto) ∧
    (∀ v, get_attr_for_layout attrs "width" = some v → as_dimension v = none →
      get_width attrs = LengthOrPercentageOrAuto.Auto) := by
  refine ⟨?_, ?_, ?_⟩
  · intro s d h
    simp [get_width, h, as_dimension]
  · intro h
    simp [get_width, h]
  · intro v h hd
    simp [get_width, h, hd]

theorem get_width_spec_witness :
    get_width [("width", AttrValue.dimension "50" (LengthOrPercentageOrAuto.Percentage 50))] =
      LengthOrPercentageOrAuto.Percentage 50 :=
  (get_width_spec [("width", AttrValue.dimension "50" (LengthOrPercentageOrAuto.Percentage 50))]).1
    "50" (LengthOrPercentageOrAuto.Percentage 50) (by decide)

/-- C10: every attribute-mutation event touches at most the one cache cell
matching the attribute's local name: a bgcolor mutation leaves border and
cellspacing unchanged, a border mutation leaves background_color and
cellspacing unchanged, a cellspacing mutation leaves background_color and
border unchanged, and a mutation of any other local name leaves the whole
cache unchanged. -/
theorem attribute_mutated_frame (cache : AttributeCache) (v : Option String) :
    ((attribute_mutated cache "bgcolor" v).border = cache.border ∧
      (attribute_mutated cache "bgcolor" v).cellspacing = cache.cellspacing) ∧
    ((attribute_mutated cache "border" v).background_color = cache.background_color ∧
      (attribute_mutated cache "border" v).cellspacing = cache.cellspacing) ∧
    ((attribute_mutated cache "cellspacing" v).background_color = cache.background_color ∧
      (attribute_mutated cache "cellspacing" v).border = cache.border) ∧
    (∀ name : String, name ≠ "bgcolor" → name ≠ "border" → name ≠ "cellspacing" →
      attribute_mutated cache name v = cache) := by
  refine ⟨⟨?_, ?_⟩, ⟨?_, ?_⟩, ⟨?_, ?_⟩, ?_⟩
  · rw [am_border]; simp
  · rw [am_cellspacing]; simp
  · rw [am_background_color]; simp
  · rw [am_cellspacing]; simp
  · rw [am_background_color]; simp
  · rw [am_border]; simp
  · intro name h1 h2 h3
    simp [attribute_mutated, h1, h2, h3]

theorem attribute_mutated_frame_witness :
    attribute_mutated ⟨none, some 1, none⟩ "width" none = ⟨none, some 1, none⟩ :=
  (attribute_mutated_frame ⟨none, some 1, none⟩ none).2.2.2 "width"
    (by decide) (by decide) (by decide)

/-- C4: after any attribute-mutation event (set, change or remove), each of
the three cache cells equals the pure derivation function applied to the
current raw value of its attribute (None on removal): invariant I2 is
preserved by every mutation step, so cache and attribute storage never
observably diverge. -/
theorem cache_matches_derivation (attrs : List (String × String))
    (cache : AttributeCache) (e : AttrEvent) (h : cacheConsistent attrs cache) :
    cacheConsistent (applyEvent (attrs, cache) e).1 (applyEvent (attrs, cache) e).2 := by
  obtain ⟨h1, h2, h3⟩ := h
  cases e with
  | set name value =>
    simp only [applyEvent]
    refine ⟨?_, ?_, ?_⟩
    · rw [am_background_color]
      by_cases hb : name = "bgcolor"
      · subst hb
        rw [if_pos rfl, lookupAttr_setAttr_same]
      · rw [if_neg hb, h1, lookupAttr_setAttr_other attrs name value "bgcolor"
          (fun hh => hb hh.symm)]
    · rw [am_border]
      by_cases hb : name = "border"
      · subst hb
        rw [if_pos rfl, lookupAttr_setAttr_same]
      · rw [if_neg hb, h2, lookupAttr_setAttr_other attrs name value "border"
          (fun hh => hb hh.symm)]
    · rw [am_cellspacing]
      by_cases hb : name = "cellspacing"
      · subst hb
        rw [if_pos rfl, lookupAttr_setAttr_same]
      · rw [if_neg hb, h3, lookupAttr_setAttr_other attrs name value "cellspacing"
          (fun hh => hb hh.symm)]
  | removed name =>
    simp only [applyEvent]
    refine ⟨?_, ?_, ?_⟩
    · rw [am_background_color]
      by_cases hb : name = "bgcolor"
      · subst hb
        rw [if_pos rfl, lookupAttr_removeAttr_same]
      · rw [if_neg hb, h1, lookupAttr_removeAttr_other attrs name "bgcolor"
          (fun hh => hb hh.symm)]
    · rw [am_border]
      by_cases hb : name = "border"
      · subst hb
        rw [if_pos rfl, lookupAttr_removeAttr_same]
      · rw [if_neg hb, h2, lookupAttr_removeAttr_other attrs name "border"
          (fun hh => hb hh.symm)]
    · rw [am_cellspacing]
      by_cases hb : name = "cellspacing"
      · subst hb
        rw [if_pos rfl, lookupAttr_removeAttr_same]
      · rw [if_neg hb, h3, lookupAttr_removeAttr_other attrs name "cellspacing"
          (fun hh => hb hh.symm)]

theorem cache_matches_derivation_witness :
    cacheConsistent (applyEvent ([], ⟨none, none, none⟩) (AttrEvent.set "border" "abc")).1
      (applyEvent ([], ⟨none, none, none⟩) (AttrEvent.set "border" "abc")).2 :=
  cache_matches_derivation [] ⟨none, none, none⟩ (AttrEvent.set "border" "abc")
    ⟨rfl, rfl, rfl⟩

/- Helper lemmas about captions and the child list. -/

theorem count_zero_of_GetCaption_none {l : List DomNode} (h : GetCaption l = none) :
    countCaptions l = 0 := by
  have hall : ∀ x ∈ l, ¬ isCaption x :=
    List.find?_eq_none.mp (show l.find? isCaption = none from h)
  simp [countCaptions, List.filter_eq_nil_iff.mpr hall]

theorem GetCaption_none_of_count_zero {l : List DomNode} (h : countCaptions l = 0) :
    GetCaption l = none := by
  have hnil : l.filter isCaption = [] := List.length_eq_zero.mp h
  show l.find? isCaption = none
  exact List.find?_eq_none.mpr (List.filter_eq_nil_iff.mp hnil)

theorem countCaptions_cons (x : DomNode) (l : List DomNode) :
    countCaptions (x :: l) = countCaptions l + (if isCaption x then 1 else 0) := by
  by_cases hx : isCaption x
  · simp [countCaptions, List.filter_cons_of_pos hx, hx]
  · simp [countCaptions, List.filter_cons_of_neg hx, hx]

theorem countCaptions_delete (l : List DomNode) :
    countCaptions (DeleteCaption l) = countCaptions l - 1 := by
  induction l with
  | nil => rfl
  | cons x xs ih =>
    by_cases hx : isCaption x
    · have hg : GetCaption (x :: xs) = some x := by
        show List.find? isCaption (x :: xs) = some x
        exact List.find?_cons_of_pos _ hx
      simp only [DeleteCaption, hg, removeSelf, List.erase_cons_head]
      rw [countCaptions_cons, if_pos hx]
      omega
    · have hg : GetCaption (x :: xs) = GetCaption xs := by
        show List.find? isCaption (x :: xs) = List.find? isCaption xs
        exact List.find?_cons_of_neg _ hx
      cases hgx : GetCaption xs with
      | none =>
        have h0 : countCaptions xs = 0 := count_zero_of_GetCaption_none hgx
        simp only [DeleteCaption, hg, hgx]
        rw [countCaptions_cons, if_neg hx]
        omega
      | some k =>
        have hk : isCaption k := List.find?_some (show List.find? isCaption xs = some k from hgx)
        have hxk : x ≠ k := fun hh => hx (hh ▸ hk)
        have ihx : countCaptions (xs.erase k) = countCaptions xs - 1 := by
          have hdel : DeleteCaption xs = xs.erase k := by
            simp [DeleteCaption, hgx, removeSelf]
          rw [← hdel]
          exact ih
        simp only [DeleteCaption, hg, hgx, removeSelf]
        rw [List.erase_cons_tail (by simpa using hxk)]
        rw [countCaptions_cons, if_neg hx, countCaptions_cons, if_neg hx]
        omega

theorem countCaptions_erase_le (l : List DomNode) (n : DomNode) :
    countCaptions (l.erase n) ≤ countCaptions l :=
  List.Sublist.length_le (List.Sublist.filter isCaption (List.erase_sublist n l))

theorem captionUnique {l : List DomNode} (h : countCaptions l ≤ 1) :
    ∀ c ∈ l, isCaption c → GetCaption l = some c := by
  induction l with
  | nil => intro c hc; simp at hc
  | cons x xs ih =>
    intro c hc hcap
    by_cases hx : isCaption x
    · have hg : GetCaption (x :: xs) = some x := by
        show List.find? isCaption (x :: xs) = some x
        exact List.find?_cons_of_pos _ hx
      rcases List.mem_cons.mp hc with rfl | hmem
      · exact hg
      · exfalso
        have h1 : c ∈ xs.filter isCaption := List.mem_filter.mpr ⟨hmem, hcap⟩
        have h2 : 0 < (xs.filter isCaption).length :=
          List.length_pos.mpr (fun hnil => by simp [hnil] at h1)
        have h3 : countCaptions (x :: xs) = countCaptions xs + 1 := by
          rw [countCaptions_cons, if_pos hx]
        have h4 : countCaptions xs = (xs.filter isCaption).length := rfl
        omega
    · have hg : GetCaption (x :: xs) = GetCaption xs := by
        show List.find? isCaption (x :: xs) = List.find? isCaption xs
        exact List.find?_cons_of_neg _ hx
      rcases List.mem_cons.mp hc with rfl | hmem
      · exact absurd hcap hx
      · have hcount : countCaptions xs ≤ 1 := by
          have heq : countCaptions (x :: xs) = countCaptions xs := by
            rw [countCaptions_cons, if_neg hx]
            omega
          omega
        rw [hg]
        exact ih hcount c hmem hcap

theorem insertBefore_head (l : List DomNode) (c : DomNode) :
    insertBefore l c (firstChild l) = .ok (c :: l.erase c) := by
  cases l with
  | nil => rfl
  | cons h t =>
    by_cases hc : h = c
    · subst hc
      show insertBefore (h :: t) h (some h) = Except.ok (h :: (h :: t).erase h)
      cases t with
      | nil => simp [insertBefore, nextSibling]
      | cons y ys => simp [insertBefore, nextSibling, insertAtRef]
    · show insertBefore (h :: t) c (some h) = Except.ok (c :: (h :: t).erase c)
      simp only [insertBefore]
      rw [if_pos (List.mem_cons_self h t), if_neg hc]
      rw [List.erase_cons_tail (by simpa using hc)]
      simp [insertAtRef]

theorem SetCaption_none_eq (l : List DomNode) :
    SetCaption l none = .ok (DeleteCaption l) := rfl

theorem SetCaption_some_eq (l : List DomNode) (c : DomNode) :
    SetCaption l (some c) = .ok (c :: (DeleteCaption l).erase c) := by
  have h : SetCaption l (some c) =
      insertBefore (DeleteCaption l) c (firstChild (DeleteCaption l)) := rfl
  rw [h, insertBefore_head]

theorem createCaption_of_none (σ : TableState) (hg : GetCaption σ.children = none) :
    CreateCaption σ = .ok (⟨σ.nextId, NodeKind.caption⟩,
      ⟨⟨σ.nextId, NodeKind.caption⟩ :: σ.children, σ.nextId + 1⟩) := by
  have hnm : (⟨σ.nextId, NodeKind.caption⟩ : DomNode) ∉ σ.children := by
    intro hmem
    have := List.find?_eq_none.mp
      (show σ.children.find? isCaption = none from hg) _ hmem
    simp [isCaption] at this
  have hset := SetCaption_some_eq σ.children ⟨σ.nextId, NodeKind.caption⟩
  have hdel : DeleteCaption σ.children = σ.children := by
    simp [DeleteCaption, hg]
  rw [hdel, List.erase_of_not_mem hnm] at hset
  simp [CreateCaption, hg, hset, Except.map]

theorem nextSibling_mem (l : List DomNode) : ∀ (n r : DomNode),
    nextSibling l n = some r → r ∈ l := by
  induction l with
  | nil => intro n r h; simp [nextSibling] at h
  | cons x xs ih =>
    intro n r h
    by_cases hx : x = n
    · rw [show nextSibling (x :: xs) n = if x = n then xs.head? else nextSibling xs n
        from rfl, if_pos hx] at h
      cases xs with
      | nil => simp at h
      | cons y ys =>
        have hyr : y = r := by simpa using h
        exact List.mem_cons_of_mem x (hyr ▸ List.mem_cons_self y ys)
    · rw [show nextSibling (x :: xs) n = if x = n then xs.head? else nextSibling xs n
        from rfl, if_neg hx] at h
      exact List.mem_cons_of_mem x (ih n r h)

theorem CreateTBody_eq (σ : TableState) :
    CreateTBody σ = (insertBefore σ.children ⟨σ.nextId, NodeKind.sectionTbody⟩
      ((revFindTbody σ.children).bind fun t => nextSibling σ.children t)).map
      (fun l2 => ((⟨σ.nextId, NodeKind.sectionTbody⟩ : DomNode),
        (⟨l2, σ.nextId + 1⟩ : TableState))) := rfl

theorem insertBefore_ok (l : List DomNode) (t : DomNode) (ref : Option DomNode)
    (h : ∀ r, ref = some r → r ∈ l) : ∃ l2, insertBefore l t ref = .ok l2 := by
  cases ref with
  | none => exact ⟨_, rfl⟩
  | some r =>
    have hr : r ∈ l := h r rfl
    simp only [insertBefore]
    rw [if_pos hr]
    cases hx : (if r = t then nextSibling l t else some r) with
    | none => exact ⟨_, rfl⟩
    | some r2 => exact ⟨_, rfl⟩

/-- C9: the Fallible insertions that SetCaption and CreateTBody unwrap
with expect("Insertion failed") never actually return an error in any
table state: the reference child handed to the tree collaborator is
always a current child (or absent), so the abort branch of the assert is
unreachable under correct use, and no recoverable error is ever
propagated. -/
theorem table_insertions_never_rejected :
    (∀ (l : List DomNode) (nc : Option DomNode), ∃ l2, SetCaption l nc = .ok l2) ∧
    (∀ σ : TableState, ∃ r, CreateTBody σ = .ok r) := by
  constructor
  · intro l nc
    cases nc with
    | none => exact ⟨DeleteCaption l, SetCaption_none_eq l⟩
    | some c => exact ⟨_, SetCaption_some_eq l c⟩
  · intro σ
    obtain ⟨l2, h2⟩ := insertBefore_ok σ.children ⟨σ.nextId, NodeKind.sectionTbody⟩
      ((revFindTbody σ.children).bind fun b => nextSibling σ.children b)
      (fun r hr => by
        rcases Option.bind_eq_some.mp hr with ⟨b, hb, hnb⟩
        exact nextSibling_mem σ.children b r hnb)
    refine ⟨(⟨σ.nextId, NodeKind.sectionTbody⟩, ⟨l2, σ.nextId + 1⟩), ?_⟩
    rw [CreateTBody_eq, h2]
    rfl

/-- C6 counterexample: on a table whose children are two caption elements
(reachable through the generic tree interface), setCaption(None) removes
only the first caption, so a subsequent getCaption() returns the second
caption, not None; the claim as stated fails at this input. -/
theorem setCaption_none_counterexample :
    SetCaption [⟨0, NodeKind.caption⟩, ⟨1, NodeKind.caption⟩] none =
      .ok [⟨1, NodeKind.caption⟩] ∧
    GetCaption [⟨1, NodeKind.caption⟩] ≠ none :=
  ⟨rfl, by decide⟩

/-- C6 (amended): for every table node and caption node c, after
setCaption(Some(c)) a subsequent getCaption() returns Some(c) and c is the
tree's first child, and when the table satisfied invariant I1 (at most one
caption child) exactly one caption child remains, the previous caption --
even c itself -- having been removed first; after setCaption(None) on a
table satisfying I1, a subsequent getCaption() returns None. -/
theorem setCaption_getCaption (l : List DomNode) (c : DomNode)
    (hc : c.kind = NodeKind.caption) :
    (∀ l2, SetCaption l (some c) = .ok l2 →
      GetCaption l2 = some c ∧ firstChild l2 = some c ∧
      (countCaptions l ≤ 1 → countCaptions l2 = 1)) ∧
    (∀ l3, SetCaption l none = .ok l3 → countCaptions l ≤ 1 →
      GetCaption l3 = none) := by
  have hcap : isCaption c := by simp [isCaption, hc]
  constructor
  · intro l2 h2
    rw [SetCaption_some_eq] at h2
    obtain rfl := Except.ok.inj h2
    refine ⟨?_, rfl, ?_⟩
    · show List.find? isCaption (c :: (DeleteCaption l).erase c) = some c
      exact List.find?_cons_of_pos _ hcap
    · intro hle
      have hd := countCaptions_delete l
      have her := countCaptions_erase_le (DeleteCaption l) c
      rw [countCaptions_cons, if_pos hcap]
      omega
  · intro l3 h3 hle
    rw [SetCaption_none_eq] at h3
    obtain rfl := Except.ok.inj h3
    have hd := countCaptions_delete l
    exact GetCaption_none_of_count_zero (by omega)

theorem setCaption_getCaption_witness :
    GetCaption [⟨1, NodeKind.caption⟩, ⟨0, NodeKind.otherElement⟩] =
      some ⟨1, NodeKind.caption⟩ ∧
    firstChild [⟨1, NodeKind.caption⟩, ⟨0, NodeKind.otherElement⟩] =
      some ⟨1, NodeKind.caption⟩ ∧
    countCaptions [⟨1, NodeKind.caption⟩, ⟨0, NodeKind.otherElement⟩] = 1 := by
  have h := (setCaption_getCaption [⟨0, NodeKind.otherElement⟩] ⟨1, NodeKind.caption⟩ rfl).1
    [⟨1, NodeKind.caption⟩, ⟨0, NodeKind.otherElement⟩] (by rfl)
  exact ⟨h.1, h.2.1, h.2.2 (by decide)⟩

/-- C5 counterexample: on a table whose existing caption is not its first
child (reachable through the generic tree interface), createCaption
returns that caption unchanged, so the returned node is not the table's
first child; the claim as stated fails at this input. -/
theorem createCaption_counterexample :
    CreateCaption ⟨[⟨0, NodeKind.otherElement⟩, ⟨1, NodeKind.caption⟩], 2⟩ =
      .ok (⟨1, NodeKind.caption⟩,
        ⟨[⟨0, NodeKind.otherElement⟩, ⟨1, NodeKind.caption⟩], 2⟩) ∧
    firstChild [⟨0, NodeKind.otherElement⟩, ⟨1, NodeKind.caption⟩] ≠
      some ⟨1, NodeKind.caption⟩ :=
  ⟨rfl, by decide⟩

/-- C5 (amended): createCaption is idempotent on every table node: a
second call in succession returns the same node and the same state as the
first; moreover on a table with no existing caption, the call installs the
newly constructed caption as the table's first child and both calls return
it (an existing caption is returned in place, wherever it sits). -/
theorem createCaption_idempotent (σ : TableState) :
    (∀ c σ2, CreateCaption σ = .ok (c, σ2) → CreateCaption σ2 = .ok (c, σ2)) ∧
    (GetCaption σ.children = none →
      ∃ c σ2, CreateCaption σ = .ok (c, σ2) ∧ firstChild σ2.children = some c ∧
        CreateCaption σ2 = .ok (c, σ2)) := by
  cases hg : GetCaption σ.children with
  | some k =>
    have hCC : CreateCaption σ = .ok (k, σ) := by simp [CreateCaption, hg]
    constructor
    · intro c σ2 h
      rw [hCC] at h
      obtain ⟨rfl, rfl⟩ := Prod.mk.inj (Except.ok.inj h)
      exact hCC
    · intro hnone
      simp [hg] at hnone
  | none =>
    have hCC := createCaption_of_none σ hg
    have hg2 : GetCaption (⟨σ.nextId, NodeKind.caption⟩ :: σ.children) =
        some ⟨σ.nextId, NodeKind.caption⟩ := by
      show List.find? isCaption _ = _
      exact List.find?_cons_of_pos _ (by simp [isCaption])
    have hCC2 : CreateCaption ⟨⟨σ.nextId, NodeKind.caption⟩ :: σ.children, σ.nextId + 1⟩ =
        .ok (⟨σ.nextId, NodeKind.caption⟩,
          ⟨⟨σ.nextId, NodeKind.caption⟩ :: σ.children, σ.nextId + 1⟩) := by
      simp [CreateCaption, hg2]
    constructor
    · intro c σ2 h
      rw [hCC] at h
      obtain ⟨rfl, rfl⟩ := Prod.mk.inj (Except.ok.inj h)
      exact hCC2
    · intro _
      exact ⟨_, _, hCC, rfl, hCC2⟩

theorem createCaption_idempotent_witness :
    ∃ c σ2, CreateCaption ⟨[], 0⟩ = .ok (c, σ2) ∧ firstChild σ2.children = some c ∧
      CreateCaption σ2 = .ok (c, σ2) :=
  (createCaption_idempotent ⟨[], 0⟩).2 rfl

theorem countCaptions_runOp (σ : TableState) (op : CaptionOp)
    (h : countCaptions σ.children ≤ 1) :
    countCaptions (runOp σ op).children ≤ 1 := by
  cases op with
  | delete =>
    show countCaptions (DeleteCaption σ.children) ≤ 1
    have := countCaptions_delete σ.children
    omega
  | set nc =>
    cases nc with
    | none =>
      simp only [runOp, SetCaption_none_eq]
      show countCaptions (DeleteCaption σ.children) ≤ 1
      have := countCaptions_delete σ.children
      omega
    | some c =>
      simp only [runOp, SetCaption_some_eq]
      show countCaptions (c :: (DeleteCaption σ.children).erase c) ≤ 1
      have h1 := countCaptions_delete σ.children
      have h2 := countCaptions_erase_le (DeleteCaption σ.children) c
      rw [countCaptions_cons]
      by_cases hcap : isCaption c
      · rw [if_pos hcap]; omega
      · rw [if_neg hcap]; omega
  | create =>
    cases hg : GetCaption σ.children with
    | some k =>
      have hCC : CreateCaption σ = .ok (k, σ) := by simp [CreateCaption, hg]
      simp only [runOp, hCC]
      exact h
    | none =>
      have hCC := createCaption_of_none σ hg
      have h0 := count_zero_of_GetCaption_none hg
      simp only [runOp, hCC]
      show countCaptions (⟨σ.nextId, NodeKind.caption⟩ :: σ.children) ≤ 1
      rw [countCaptions_cons, if_pos (show isCaption ⟨σ.nextId, NodeKind.caption⟩ from
        by simp [isCaption])]
      omega

/-- C3: from any table state satisfying invariant I1 (at most one
caption-type direct child) -- in particular any state reachable through
this interface from a fresh table -- every sequence of setCaption,
createCaption and deleteCaption calls preserves I1, and whenever a caption
child is present it is only reachable as the first matching child in
document order, the one getCaption returns. -/
theorem caption_singleton_invariant (ops : List CaptionOp) (σ : TableState)
    (h : countCaptions σ.children ≤ 1) :
    countCaptions (runOps σ ops).children ≤ 1 ∧
    ∀ c ∈ (runOps σ ops).children, isCaption c →
      GetCaption (runOps σ ops).children = some c := by
  have main : ∀ (ops2 : List CaptionOp) (τ : TableState),
      countCaptions τ.children ≤ 1 → countCaptions (runOps τ ops2).children ≤ 1 := by
    intro ops2
    induction ops2 with
    | nil => intro τ hτ; exact hτ
    | cons op rest ih =>
      intro τ hτ
      have hstep := countCaptions_runOp τ op hτ
      simpa [runOps] using ih (runOp τ op) hstep
  exact ⟨main ops σ h, fun c hc hcap => captionUnique (main ops σ h) c hc hcap⟩

theorem caption_singleton_invariant_witness :
    countCaptions (runOps ⟨[], 0⟩ [CaptionOp.create,
      CaptionOp.set (some ⟨7, NodeKind.caption⟩), CaptionOp.delete,
      CaptionOp.create]).children ≤ 1 ∧
    ∀ c ∈ (runOps ⟨[], 0⟩ [CaptionOp.create,
      CaptionOp.set (some ⟨7, NodeKind.caption⟩), CaptionOp.delete,
      CaptionOp.create]).children, isCaption c →
      GetCaption (runOps ⟨[], 0⟩ [CaptionOp.create,
        CaptionOp.set (some ⟨7, NodeKind.caption⟩), CaptionOp.delete,
        CaptionOp.create]).children = some c :=
  caption_singleton_invariant _ ⟨[], 0⟩ (by decide)

/- Helper lemmas for the CreateTBody insertion rule. -/

theorem insertBefore_none_eq (l : List DomNode) (t : DomNode) (htl : t ∉ l) :
    insertBefore l t none = Except.ok (l ++ [t]) := by
  show Except.ok (l.erase t ++ [t]) = _
  rw [List.erase_of_not_mem htl]

theorem insertBefore_some_of_mem (l : List DomNode) (t r : DomNode)
    (hr : r ∈ l) (hrt : r ≠ t) (htl : t ∉ l) :
    insertBefore l t (some r) = Except.ok (insertAtRef l t r) := by
  simp only [insertBefore]
  rw [if_pos hr, if_neg hrt, List.erase_of_not_mem htl]

theorem insertAtRef_cons (x : DomNode) (xs : List DomNode) (t r : DomNode)
    (hxr : x ≠ r) : insertAtRef (x :: xs) t r = x :: insertAtRef xs t r := by
  simp [insertAtRef, hxr]

theorem revFindTbody_cons (x : DomNode) (xs : List DomNode) :
    revFindTbody (x :: xs) =
      (revFindTbody xs).or (if isTbody x then some x else none) := by
  show ((x :: xs).reverse.filterMap downcastElement).find? isTbody = _
  rw [List.reverse_cons, List.filterMap_append, List.find?_append]
  congr 1
  by_cases hk : x.kind = NodeKind.nonElement
  · simp [downcastElement, hk, isTbody]
  · by_cases hb : isTbody x <;> simp [downcastElement, hk, List.find?, hb]

theorem revFindTbody_mem (l : List DomNode) (b : DomNode)
    (h : revFindTbody l = some b) : b ∈ l := by
  have hmem := List.mem_of_find?_eq_some
    (show (l.reverse.filterMap downcastElement).find? isTbody = some b from h)
  rcases List.mem_filterMap.mp hmem with ⟨a, ha, hab⟩
  have hae : a = b := by
    by_cases hk : a.kind = NodeKind.nonElement
    · simp [downcastElement, hk] at hab
    · simpa [downcastElement, hk] using hab
  exact List.mem_reverse.mp (hae ▸ ha)

theorem revFindTbody_none (l : List DomNode) (h : revFindTbody l = none) :
    ∀ n ∈ l, isTbody n = false := by
  intro n hn
  by_cases htb : isTbody n
  · exfalso
    have hkind : n.kind = NodeKind.sectionTbody := by simpa [isTbody] using htb
    have hmem2 : n ∈ l.reverse.filterMap downcastElement :=
      List.mem_filterMap.mpr ⟨n, List.mem_reverse.mpr hn,
        by simp [downcastElement, hkind]⟩
    exact absurd htb (List.find?_eq_none.mp
      (show (l.reverse.filterMap downcastElement).find? isTbody = none from h) n hmem2)
  · simpa using htb

theorem insertAfterLastMatch_no_match (p : DomNode → Bool) (l : List DomNode)
    (t : DomNode) (h : ∀ n ∈ l, p n = false) :
    insertAfterLastMatch p l t = l ++ [t] := by
  induction l with
  | nil => rfl
  | cons x xs ih =>
    have hany : xs.any p = false :=
      List.any_eq_false.mpr (fun n hn => by simp [h n (List.mem_cons_of_mem x hn)])
    have hx : p x = false := h x (List.mem_cons_self x xs)
    simp only [insertAfterLastMatch, hany, hx]
    simp only [Bool.false_eq_true, if_false]
    exact congrArg (x :: ·) (ih (fun n hn => h n (List.mem_cons_of_mem x hn)))

theorem insertAfterLastMatch_cons_any (p : DomNode → Bool) (x : DomNode)
    (xs : List DomNode) (t : DomNode) (h : xs.any p = true) :
    insertAfterLastMatch p (x :: xs) t = x :: insertAfterLastMatch p xs t := by
  simp [insertAfterLastMatch, h]

theorem createTBody_core (l : List DomNode) : ∀ (t : DomNode), t ∉ l → l.Nodup →
    insertBefore l t ((revFindTbody l).bind fun b => nextSibling l b) =
      .ok (insertAfterLastMatch isTbody l t) := by
  induction l with
  | nil => intro t _ _; rfl
  | cons x xs ih =>
    intro t ht hnd
    have htxs : t ∉ xs := fun hh => ht (List.mem_cons_of_mem x hh)
    have hxxs : x ∉ xs := (List.nodup_cons.mp hnd).1
    have hndxs : xs.Nodup := (List.nodup_cons.mp hnd).2
    rw [revFindTbody_cons]
    cases hf : revFindTbody xs with
    | some b =>
      have hbmem : b ∈ xs := revFindTbody_mem xs b hf
      have hbtb : isTbody b = true := List.find?_some
        (show (xs.reverse.filterMap downcastElement).find? isTbody = some b from hf)
      have hxb : x ≠ b := fun hh => hxxs (hh ▸ hbmem)
      have hany : xs.any isTbody = true := List.any_eq_true.mpr ⟨b, hbmem, hbtb⟩
      show insertBefore (x :: xs) t (nextSibling (x :: xs) b) =
        Except.ok (insertAfterLastMatch isTbody (x :: xs) t)
      have hns : nextSibling (x :: xs) b = nextSibling xs b := by
        show (if x = b then xs.head? else nextSibling xs b) = nextSibling xs b
        rw [if_neg hxb]
      rw [hns, insertAfterLastMatch_cons_any _ _ _ _ hany]
      have ihx : insertBefore xs t (nextSibling xs b) =
          Except.ok (insertAfterLastMatch isTbody xs t) := by
        have h0 := ih t htxs hndxs
        rw [hf] at h0
        exact h0
      cases hns2 : nextSibling xs b with
      | none =>
        rw [hns2] at ihx
        rw [insertBefore_none_eq _ _ ht]
        rw [insertBefore_none_eq _ _ htxs] at ihx
        have heq := Except.ok.inj ihx
        rw [← heq]
        rfl
      | some r =>
        rw [hns2] at ihx
        have hrmem : r ∈ xs := nextSibling_mem xs b r hns2
        have hrt : r ≠ t := fun hh => htxs (hh ▸ hrmem)
        have hxr : x ≠ r := fun hh => hxxs (hh ▸ hrmem)
        rw [insertBefore_some_of_mem (x :: xs) t r
          (List.mem_cons_of_mem x hrmem) hrt ht]
        rw [insertBefore_some_of_mem xs t r hrmem hrt htxs] at ihx
        have heq := Except.ok.inj ihx
        rw [insertAtRef_cons x xs t r hxr, heq]
    | none =>
      have hnone := revFindTbody_none xs hf
      have hany : xs.any isTbody = false :=
        List.any_eq_false.mpr (fun n hn => by simp [hnone n hn])
      by_cases hxt : isTbody x
      · rw [if_pos hxt]
        show insertBefore (x :: xs) t (nextSibling (x :: xs) x) =
          Except.ok (insertAfterLastMatch isTbody (x :: xs) t)
        have hnsx : nextSibling (x :: xs) x = xs.head? := by
          show (if x = x then xs.head? else nextSibling xs x) = xs.head?
          rw [if_pos rfl]
        rw [hnsx]
        cases xs with
        | nil =>
          show insertBefore [x] t none = Except.ok (insertAfterLastMatch isTbody [x] t)
          rw [insertBefore_none_eq _ _ ht]
          simp [insertAfterLastMatch, hxt]
        | cons y ys =>
          show insertBefore (x :: y :: ys) t (some y) =
            Except.ok (insertAfterLastMatch isTbody (x :: y :: ys) t)
          have hymem : y ∈ x :: y :: ys := List.mem_cons_of_mem x (List.mem_cons_self y ys)
          have hyt : y ≠ t := fun hh => ht (hh ▸ hymem)
          have hxy : x ≠ y := fun hh => hxxs (hh ▸ List.mem_cons_self y ys)
          rw [insertBefore_some_of_mem _ _ _ hymem hyt ht]
          rw [insertAtRef_cons x _ t y hxy]
          have h1 : insertAtRef (y :: ys) t y = t :: y :: ys := by
            simp [insertAtRef]
          rw [h1]
          simp [insertAfterLastMatch, hany, hxt]
      · rw [if_neg hxt]
        show insertBefore (x :: xs) t none =
          Except.ok (insertAfterLastMatch isTbody (x :: xs) t)
        rw [insertBefore_none_eq _ _ ht]
        have hall : ∀ n ∈ x :: xs, isTbody n = false := by
          intro n hn
          rcases List.mem_cons.mp hn with rfl | hmem
          · simpa using hxt
          · exact hnone n hmem
        rw [insertAfterLastMatch_no_match _ _ _ hall]

/-- C1 counterexample: on a table whose children are a tbody followed by a
thead/tfoot-kind section element, CreateTBody inserts the new tbody
between them (after the last tbody), not immediately after the last
section-type child: the code's result differs from the claim's insertion
rule (insertAfterLastMatch over section-type children) at this input. -/
theorem createTBody_counterexample :
    CreateTBody ⟨[⟨0, NodeKind.sectionTbody⟩, ⟨1, NodeKind.sectionOther⟩], 2⟩ =
      .ok (⟨2, NodeKind.sectionTbody⟩,
        ⟨[⟨0, NodeKind.sectionTbody⟩, ⟨2, NodeKind.sectionTbody⟩,
          ⟨1, NodeKind.sectionOther⟩], 3⟩) ∧
    isSectionType ⟨1, NodeKind.sectionOther⟩ = true ∧
    [⟨0, NodeKind.sectionTbody⟩, ⟨2, NodeKind.sectionTbody⟩,
        ⟨1, NodeKind.sectionOther⟩] ≠
      insertAfterLastMatch isSectionType
        [⟨0, NodeKind.sectionTbody⟩, ⟨1, NodeKind.sectionOther⟩]
        ⟨2, NodeKind.sectionTbody⟩ :=
  ⟨rfl, rfl, by decide⟩

/-- C1 (amended): for every well-formed table state, CreateTBody
constructs a fresh tbody section child and inserts it immediately after
the last existing tbody section child among the direct children (before
that child's next sibling, appending when it is last), or appends it as
the last child when no tbody child exists; the relative order of all other
direct children is undisturbed (the result is exactly the spec-side
insertAfterLastMatch rule restricted to tbody-kind section children) and
the newly created, inserted child is returned. -/
theorem createTBody_spec (σ : TableState) (h : WF σ) :
    CreateTBody σ = .ok (⟨σ.nextId, NodeKind.sectionTbody⟩,
      ⟨insertAfterLastMatch isTbody σ.children ⟨σ.nextId, NodeKind.sectionTbody⟩,
        σ.nextId + 1⟩) := by
  obtain ⟨hids, hlt⟩ := h
  have hnd : σ.children.Nodup := List.Nodup.of_map _ hids
  have ht : (⟨σ.nextId, NodeKind.sectionTbody⟩ : DomNode) ∉ σ.children := fun hm =>
    Nat.lt_irrefl σ.nextId (hlt _ hm)
  have hcore := createTBody_core σ.children ⟨σ.nextId, NodeKind.sectionTbody⟩ ht hnd
  rw [CreateTBody_eq, hcore]
  rfl

theorem createTBody_spec_witness :
    CreateTBody ⟨[⟨0, NodeKind.sectionTbody⟩, ⟨1, NodeKind.otherElement⟩], 2⟩ =
      .ok (⟨2, NodeKind.sectionTbody⟩,
        ⟨insertAfterLastMatch isTbody
          [⟨0, NodeKind.sectionTbody⟩, ⟨1, NodeKind.otherElement⟩]
          ⟨2, NodeKind.sectionTbody⟩, 3⟩) :=
  createTBody_spec ⟨[⟨0, NodeKind.sectionTbody⟩, ⟨1, NodeKind.otherElement⟩], 2⟩
    ⟨by decide, by decide⟩
